import Mathlib

/-!
# Verification of `hetvec` (heterogeneous vector with pairwise dispatch)

Shallow embedding of `hetvec.hpp`.  A `hetvec<T1, ..., TN>` is modelled as a
chain of partitions, one per declared type, in declared order.  Types are
identified by their index in the declared type list (`Elem.ty`); element
identity is a natural number (`Elem.val`).  A traversal (`perform`) is
modelled as the list of handler invocations `fcns.f(first, second)` it makes,
in execution order; a visitor is a function from such an invocation to an
optional observable effect (the generic fallback yields `none`).
-/

namespace Hetvec

/-- An element of the heterogeneous vector: the index of its static type in
the declared type list, together with its value (element identity). -/
structure Elem where
  ty : Nat
  val : Nat
deriving DecidableEq

/-- One handler invocation `fcns.f(first, second)` observed during a
traversal. -/
abbrev Call := Elem × Elem

/-- One partition: a declared type index together with the `std::vector` of
values of that type, in storage order. -/
abbrev Partition := Nat × List Nat

/-- The partition chain of `hetvec<T1, ..., TN>`: partitions in declared
order.  `hetvec<>` is the empty chain. -/
abbrev Chain := List Partition

/-- `hetvec<>::f(a1, a2, fcns)` (hetvec.hpp:51-59).  C++ overload resolution
selects the same-type overload (one call `fcns.f(a1, a2)`) when the two
static types coincide, and the cross-type overload (`fcns.f(a1, a2)` then
`fcns.f(a2, a1)`) when they differ. -/
def f (a1 a2 : Elem) : List Call :=
  if a1.ty = a2.ty then [(a1, a2)] else [(a1, a2), (a2, a1)]

/-- The same-type nested loops of `hetvec<T, Ts...>::perform(fcns)`
(hetvec.hpp:111-115): for `i < j`, `f(v[i], v[j], fcns)`. -/
def sameTyTrace (ty : Nat) : List Nat → List Call
  | [] => []
  | x :: xs => (xs.map fun y => f ⟨ty, x⟩ ⟨ty, y⟩).flatten ++ sameTyTrace ty xs

/-- `hetvec<T, Ts...>::perform(u, fcns)` (hetvec.hpp:75-79): test the
forwarded element `u` against each own element (`f(t, u, fcns)` for `t` in
`v`), then forward `u` to the parent chain. -/
def performFwd : Chain → Elem → List Call
  | [], _ => []
  | (ty, vs) :: rest, u => (vs.map fun t => f ⟨ty, t⟩ u).flatten ++ performFwd rest u

/-- `hetvec<T, Ts...>::perform(fcns)` (hetvec.hpp:108-119): same-type testing
of own elements, then forward each own element to the parent chain, then the
parent's `perform`.  `hetvec<>::perform(fcns)` does nothing. -/
def performAll : Chain → List Call
  | [] => []
  | (ty, vs) :: rest =>
      sameTyTrace ty vs ++ (vs.map fun t => performFwd rest ⟨ty, t⟩).flatten
        ++ performAll rest

/-- `hetvec<T, Ts...>::push_back` (hetvec.hpp:99-105): the non-template
overload wins for an exact static type match, otherwise the element is
forwarded to the parent chain; `hetvec<>` has no `push_back`, so a value of
an undeclared type does not compile (`none`). -/
def pushBack : Chain → Elem → Option Chain
  | [], _ => none
  | (ty, vs) :: rest, e =>
      if e.ty = ty then some ((ty, vs ++ [e.val]) :: rest)
      else (pushBack rest e).map fun r => (ty, vs) :: r

/-- A sequence of `push_back` calls, in order. -/
def pushBackList : Chain → List Elem → Option Chain
  | c, [] => some c
  | c, e :: es =>
      match pushBack c e with
      | none => none
      | some c2 => pushBackList c2 es

/-- The default-constructed `hetvec` over the given declared type list:
every partition empty. -/
def emptyHet (tys : List Nat) : Chain := tys.map fun ty => (ty, [])

/-- The variadic constructors of `hetvec<T, Ts...>` (hetvec.hpp:82-95).
When the first argument has exactly the head type, the constructor delegates
to the same class on the remaining arguments and only afterwards runs its
body `v.push_back(t)`; otherwise all arguments go to the base-class
constructor and the head partition stays empty.  `hetvec<>` accepts no
arguments, so a leftover argument does not compile (`none`). -/
def construct : List Nat → List Elem → Option Chain
  | tys, [] => some (emptyHet tys)
  | [], _ :: _ => none
  | ty :: tys, e :: es =>
      if e.ty = ty then
        match construct (ty :: tys) es with
        | some ((t, vs) :: rest) => some ((t, vs ++ [e.val]) :: rest)
        | _ => none
      else
        (construct tys (e :: es)).map fun c => (ty, []) :: c
termination_by tys es => tys.length + es.length

/-- `hetvec<T, Ts...>::size` (hetvec.hpp:121-123) and `hetvec<>::size`
(hetvec.hpp:60-62). -/
def size : Chain → Nat
  | [] => 0
  | (_, vs) :: rest => vs.length + size rest

/-- `hetvec<T, Ts...>::clear` (hetvec.hpp:125-128) and `hetvec<>::clear`
(hetvec.hpp:64). -/
def clear : Chain → Chain
  | [] => []
  | (ty, _) :: rest => (ty, []) :: clear rest

/-- `hetvec<T, Ts...>::empty` (hetvec.hpp:130-132): `size() == 0`. -/
def empty (c : Chain) : Bool := size c == 0

/-- The elements stored in a chain, each tagged with its type index, in
chain-then-storage order. -/
def elemsOf : Chain → List Elem
  | [] => []
  | (ty, vs) :: rest => (vs.map fun v => (⟨ty, v⟩ : Elem)) ++ elemsOf rest

/-- The stored values of the given type index (concatenated over all
partitions carrying that index; under distinct declared types there is at
most one such partition). -/
def partOf : Chain → Nat → List Nat
  | [], _ => []
  | (ty, vs) :: rest, i => (if i = ty then vs else []) ++ partOf rest i

/-! ## State-threaded traversal

The C++ `perform` member functions are non-`const`, so we also give the
state-threaded translation, in which each traversal step returns the
partition chain it leaves behind together with the invocations it makes.
The bodies mirror hetvec.hpp line by line: no statement ever writes to a
vector, so each step rebuilds the chain it was given. -/

/-- State-threaded `hetvec<T, Ts...>::perform(u, fcns)`. -/
def performFwdSt : Chain → Elem → Chain × List Call
  | [], _ => ([], [])
  | (ty, vs) :: rest, u =>
      let here := (vs.map fun t => f ⟨ty, t⟩ u).flatten
      let r := performFwdSt rest u
      ((ty, vs) :: r.1, here ++ r.2)

/-- The `std::for_each` of hetvec.hpp:117, threading the parent chain
through the forwarding of each own element in storage order. -/
def forwardAllSt : Chain → Nat → List Nat → Chain × List Call
  | rest, _, [] => (rest, [])
  | rest, ty, t :: ts =>
      let r1 := performFwdSt rest ⟨ty, t⟩
      let r2 := forwardAllSt r1.1 ty ts
      (r2.1, r1.2 ++ r2.2)

theorem performFwdSt_fst (c : Chain) (u : Elem) : (performFwdSt c u).1 = c := by
  induction c with
  | nil => rfl
  | cons p rest ih => cases p; simp [performFwdSt, ih]

theorem forwardAllSt_fst (c : Chain) (ty : Nat) (ts : List Nat) :
    (forwardAllSt c ty ts).1 = c := by
  induction ts generalizing c with
  | nil => rfl
  | cons t ts ih => simp [forwardAllSt, performFwdSt_fst, ih]

/-- State-threaded `hetvec<T, Ts...>::perform(fcns)`. -/
def performAllSt : Chain → Chain × List Call
  | [] => ([], [])
  | (ty, vs) :: rest =>
      let same := sameTyTrace ty vs
      let r1 := forwardAllSt rest ty vs
      let r2 := performAllSt r1.1
      ((ty, vs) :: r2.1, same ++ r1.2 ++ r2.2)
termination_by c => c.length
decreasing_by simp [forwardAllSt_fst]

/-! ## Traversal as a relation

A run of `perform` on a chain, as an inductively defined relation between
the chain and the invocation sequence produced, mirroring the recursion of
hetvec.hpp:108-119. -/

/-- `Run c tr` holds when a traversal of chain `c` produces exactly the
invocation sequence `tr`. -/
inductive Run : Chain → List Call → Prop
  | nil : Run [] []
  | cons (ty : Nat) (vs : List Nat) (rest : Chain) (tr : List Call) :
      Run rest tr →
      Run ((ty, vs) :: rest)
        (sameTyTrace ty vs ++ (vs.map fun t => performFwd rest ⟨ty, t⟩).flatten
          ++ tr)

/-! ## The example program (example.cpp)

Type indices in declared order: `Dog = 0`, `Car = 1`, `Foo = 2`, `Bar = 3`. -/

/-- The observable effects of the handlers of `MyCustomBehaviour`
(example.cpp:14-20). -/
inductive Effect where
  | twoDogs
  | carHitDog
  | foobar
deriving DecidableEq

/-- `MyCustomBehaviour` (example.cpp:14-20): exact handlers for
`(Dog, Dog)`, `(Dog, Car)` and `(Bar, Foo)`, each printing one message; the
generic template fallback does nothing (`none`).  Overload resolution is by
the static types of the pair. -/
def myCustomBehaviour (c : Call) : Option Effect :=
  match c.1.ty, c.2.ty with
  | 0, 0 => some .twoDogs
  | 0, 1 => some .carHitDog
  | 3, 2 => some .foobar
  | _, _ => none

/-- The collection built by `main` (example.cpp:24-25):
`hetvec<Dog, Car, Foo, Bar> hv {Dog(), Dog(), Car(), Bar()}` followed by
`hv.push_back(Foo())`.  Element values number the occurrences. -/
def exampleChain : Option Chain :=
  match construct [0, 1, 2, 3] [⟨0, 1⟩, ⟨0, 2⟩, ⟨1, 3⟩, ⟨3, 4⟩] with
  | none => none
  | some c => pushBack c ⟨2, 5⟩

/-! ## Basic lemmas -/

theorem flatten_map_singleton {α β : Type} (l : List α) (g : α → β) :
    (l.map fun a => [g a]).flatten = l.map g := by
  induction l with
  | nil => rfl
  | cons x xs ih => simp [ih]

theorem sameTyTrace_cons (ty x : Nat) (xs : List Nat) :
    sameTyTrace ty (x :: xs)
      = (xs.map fun y => (((⟨ty, x⟩ : Elem), (⟨ty, y⟩ : Elem)) : Call))
        ++ sameTyTrace ty xs := by
  have : (fun y => f ⟨ty, x⟩ ⟨ty, y⟩)
      = fun y => [(((⟨ty, x⟩ : Elem), (⟨ty, y⟩ : Elem)) : Call)] := by
    funext y; simp [f]
  simp [sameTyTrace, this, flatten_map_singleton]

theorem clear_eq_emptyHet (c : Chain) : clear c = emptyHet (c.map Prod.fst) := by
  induction c with
  | nil => rfl
  | cons p rest ih => cases p; simp [clear, emptyHet, ih]

theorem performAll_emptyHet (tys : List Nat) : performAll (emptyHet tys) = [] := by
  induction tys with
  | nil => rfl
  | cons ty tys ih =>
      simp only [emptyHet, List.map_cons] at ih ⊢
      simp [performAll, sameTyTrace, ih]

theorem size_emptyHet (tys : List Nat) : size (emptyHet tys) = 0 := by
  induction tys with
  | nil => rfl
  | cons ty tys ih =>
      simp only [emptyHet, List.map_cons] at ih ⊢
      simp [size, ih]

theorem size_eq_sum (c : Chain) : size c = (c.map fun p => p.2.length).sum := by
  induction c with
  | nil => rfl
  | cons p rest ih => cases p; simp [size, ih]

theorem pushBack_size (c : Chain) (e : Elem) (c2 : Chain)
    (h : pushBack c e = some c2) : size c2 = size c + 1 := by
  induction c generalizing c2 with
  | nil => simp [pushBack] at h
  | cons p rest ih =>
      obtain ⟨ty, vs⟩ := p
      by_cases hty : e.ty = ty
      · simp [pushBack, hty] at h
        simp [← h, size]; omega
      · simp [pushBack, hty] at h
        obtain ⟨r, hr, hc2⟩ := h
        have := ih r hr
        simp [← hc2, size]; omega

theorem pushBackList_size (es : List Elem) (c c2 : Chain)
    (h : pushBackList c es = some c2) : size c2 = size c + es.length := by
  induction es generalizing c with
  | nil => simp [pushBackList] at h; simp [h]
  | cons e es ih =>
      cases hb : pushBack c e with
      | none => simp [pushBackList, hb] at h
      | some c1 =>
          simp [pushBackList, hb] at h
          have h1 := pushBack_size c e c1 hb
          have h2 := ih c1 h
          simp; omega

/-! ## Claim theorems (lifecycle) -/

/-- C5: starting from an empty collection, after any sequence of N
`push_back` insertions `size()` returns exactly N, and `size()` equals the
sum over every partition of its element count. -/
theorem c5_size_counts_insertions (tys : List Nat) (es : List Elem) (c : Chain)
    (h : pushBackList (emptyHet tys) es = some c) :
    size c = es.length ∧ size c = (c.map fun p => p.2.length).sum := by
  have h1 := pushBackList_size es (emptyHet tys) c h
  rw [size_emptyHet] at h1
  exact ⟨by omega, size_eq_sum c⟩

theorem c5_witness :
    size [(0, [5, 2]), (1, [7])] = 3
    ∧ size [(0, [5, 2]), (1, [7])]
        = (([(0, [5, 2]), (1, [7])] : Chain).map fun p => p.2.length).sum :=
  c5_size_counts_insertions [0, 1] [⟨0, 5⟩, ⟨1, 7⟩, ⟨0, 2⟩]
    [(0, [5, 2]), (1, [7])] (by decide)

/-- C6: after `clear()` the collection is literally the freshly
default-constructed empty collection over the same declared type list (so
every partition is empty and every subsequent operation behaves
identically), `empty()` returns `true`, `size()` is zero, and a traversal
of the cleared collection invokes zero handlers. -/
theorem c6_clear_resets (c : Chain) :
    clear c = emptyHet (c.map Prod.fst)
    ∧ performAll (clear c) = []
    ∧ empty (clear c) = true
    ∧ size (clear c) = 0 := by
  refine ⟨clear_eq_emptyHet c, ?_, ?_, ?_⟩ <;>
    simp [clear_eq_emptyHet, performAll_emptyHet, empty, size_emptyHet]

theorem performFwdSt_eq (c : Chain) (u : Elem) :
    performFwdSt c u = (c, performFwd c u) := by
  induction c with
  | nil => rfl
  | cons p rest ih => cases p; simp [performFwdSt, performFwd, ih]

theorem forwardAllSt_eq (c : Chain) (ty : Nat) (ts : List Nat) :
    forwardAllSt c ty ts = (c, (ts.map fun t => performFwd c ⟨ty, t⟩).flatten) := by
  induction ts with
  | nil => rfl
  | cons t ts ih => simp [forwardAllSt, performFwdSt_eq, ih]

/-- C7: traversal does not modify the collection.  The state-threaded
translation of `perform` returns the partition chain unchanged, together
with the invocation trace. -/
theorem c7_traversal_frame (c : Chain) :
    performAllSt c = (c, performAll c) := by
  induction c with
  | nil => rw [performAllSt]; rfl
  | cons p rest ih =>
      obtain ⟨ty, vs⟩ := p
      rw [performAllSt]
      simp [forwardAllSt_eq, ih, performAll]

/-- C9: `push_back` appends exactly one element at the end of the partition
of its exact type, leaves every other partition unchanged, and increments
`size()` by one. -/
theorem c9_pushBack_frame (c : Chain) (e : Elem) (c2 : Chain)
    (h : pushBack c e = some c2) :
    size c2 = size c + 1
    ∧ ∃ pre vs post, c = pre ++ (e.ty, vs) :: post
        ∧ c2 = pre ++ (e.ty, vs ++ [e.val]) :: post
        ∧ ∀ q ∈ pre, q.1 ≠ e.ty := by
  refine ⟨pushBack_size c e c2 h, ?_⟩
  induction c generalizing c2 with
  | nil => simp [pushBack] at h
  | cons p rest ih =>
      obtain ⟨ty, vs⟩ := p
      by_cases hty : e.ty = ty
      · subst hty
        simp [pushBack] at h
        exact ⟨[], vs, rest, by simp, by simp [← h], by simp⟩
      · simp [pushBack, hty] at h
        obtain ⟨r, hr, hc2⟩ := h
        obtain ⟨pre, vs2, post, h1, h2, h3⟩ := ih r hr
        refine ⟨(ty, vs) :: pre, vs2, post, by simp [h1], by simp [← hc2, h2], ?_⟩
        intro q hq
        rcases List.mem_cons.mp hq with hq | hq
        · simp [hq]; intro hcon; exact hty hcon.symm
        · exact h3 q hq

theorem c9_witness :
    size [(0, [1]), (1, [9])] = size [(0, [1]), (1, [])] + 1
    ∧ ∃ pre vs post, ([(0, [1]), (1, [])] : Chain)
          = pre ++ ((⟨1, 9⟩ : Elem).ty, vs) :: post
        ∧ ([(0, [1]), (1, [9])] : Chain)
          = pre ++ ((⟨1, 9⟩ : Elem).ty, vs ++ [(⟨1, 9⟩ : Elem).val]) :: post
        ∧ ∀ q ∈ pre, q.1 ≠ (⟨1, 9⟩ : Elem).ty :=
  c9_pushBack_frame [(0, [1]), (1, [])] ⟨1, 9⟩ [(0, [1]), (1, [9])] (by decide)

/-- C3: the example program (example.cpp): the collection holds two dogs,
one car, one foo and one bar; a traversal with `MyCustomBehaviour` produces
exactly one "two dogs" effect, exactly two "car hit dog" effects and exactly
one "foobar" effect, in that order, with the remaining 15 of the 19 handler
invocations falling to the no-op fallback (no observable effect). -/
theorem c3_example_program :
    exampleChain = some [(0, [2, 1]), (1, [3]), (2, [5]), (3, [4])]
    ∧ (performAll [(0, [2, 1]), (1, [3]), (2, [5]), (3, [4])]).filterMap
        myCustomBehaviour
      = [Effect.twoDogs, Effect.carHitDog, Effect.carHitDog, Effect.foobar]
    ∧ ((performAll [(0, [2, 1]), (1, [3]), (2, [5]), (3, [4])]).filterMap
        myCustomBehaviour).count Effect.twoDogs = 1
    ∧ ((performAll [(0, [2, 1]), (1, [3]), (2, [5]), (3, [4])]).filterMap
        myCustomBehaviour).count Effect.carHitDog = 2
    ∧ ((performAll [(0, [2, 1]), (1, [3]), (2, [5]), (3, [4])]).filterMap
        myCustomBehaviour).count Effect.foobar = 1
    ∧ (performAll [(0, [2, 1]), (1, [3]), (2, [5]), (3, [4])]).countP
        (fun k => (myCustomBehaviour k).isSome) = 4
    ∧ (performAll [(0, [2, 1]), (1, [3]), (2, [5]), (3, [4])]).length = 19 := by
  have h1 : construct [0, 1, 2, 3] [⟨0, 1⟩, ⟨0, 2⟩, ⟨1, 3⟩, ⟨3, 4⟩]
      = some [(0, [2, 1]), (1, [3]), (2, []), (3, [4])] := by
    simp [construct, emptyHet]
  refine ⟨?_, ?_, ?_, ?_, ?_, ?_, ?_⟩
  · unfold exampleChain; rw [h1]; decide
  all_goals decide

/-- C4 counterexample: constructing `hetvec<T> {t1, t2}` is NOT the same as
default-constructing and pushing `t1` then `t2`: the delegating constructor
pushes its first argument only after the remaining arguments have been
handled, so the partition order comes out reversed. -/
theorem c4_counterexample :
    (construct [0] [⟨0, 1⟩, ⟨0, 2⟩]
      == pushBackList (emptyHet [0]) [⟨0, 1⟩, ⟨0, 2⟩]) = false := by
  have h1 : construct [0] [⟨0, 1⟩, ⟨0, 2⟩] = some [(0, [2, 1])] := by
    simp [construct, emptyHet]
  have h2 : pushBackList (emptyHet [0]) [⟨0, 1⟩, ⟨0, 2⟩] = some [(0, [1, 2])] := by
    decide
  rw [h1, h2]; decide

/-! ## Construction versus insertion (C4) -/

theorem emptyHet_map_fst (tys : List Nat) : (emptyHet tys).map Prod.fst = tys := by
  induction tys with
  | nil => rfl
  | cons t ts ih =>
      simp only [emptyHet, List.map_cons] at ih ⊢
      simp [ih]

theorem construct_map_fst : ∀ (tys : List Nat) (es : List Elem) (c : Chain),
    construct tys es = some c → c.map Prod.fst = tys := by
  intro tys es
  induction tys, es using construct.induct with
  | case1 tys =>
      intro c h
      simp [construct] at h
      rw [← h, emptyHet_map_fst]
  | case2 e es =>
      intro c h
      simp [construct] at h
  | case3 tys e es t vs rest hsome ih =>
      intro c h
      simp [construct, hsome] at h
      have h2 := ih _ hsome
      simp at h2
      rw [← h]
      simpa using h2
  | case4 tys e es hnone ih =>
      intro c h
      exfalso
      cases hc : construct (e.ty :: tys) es with
      | none => simp [construct, hc] at h
      | some c0 =>
          cases c0 with
          | nil =>
              have := ih _ hc
              simp at this
          | cons p rest0 =>
              obtain ⟨t, vs⟩ := p
              exact hnone t vs rest0 hc
  | case5 ty tys e es hne ih =>
      intro c h
      simp [construct, hne] at h
      obtain ⟨c0, hc0, hc⟩ := h
      have h2 := ih _ hc0
      rw [← hc]
      simp [h2]

theorem construct_tys_mem : ∀ (tys : List Nat) (es : List Elem) (c : Chain),
    construct tys es = some c → ∀ x ∈ es, x.ty ∈ tys := by
  intro tys es
  induction tys, es using construct.induct with
  | case1 tys => intro c _ x hx; simp at hx
  | case2 e es => intro c h; simp [construct] at h
  | case3 tys e es t vs rest hsome ih =>
      intro c _ x hx
      rcases List.mem_cons.mp hx with hx | hx
      · simp [hx]
      · exact ih _ hsome x hx
  | case4 tys e es hnone ih =>
      intro c h
      exfalso
      cases hc : construct (e.ty :: tys) es with
      | none => simp [construct, hc] at h
      | some c0 =>
          cases c0 with
          | nil =>
              have := construct_map_fst _ _ _ hc
              simp at this
          | cons p rest0 =>
              obtain ⟨t, vs⟩ := p
              exact hnone t vs rest0 hc
  | case5 ty tys e es hne ih =>
      intro c h x hx
      simp [construct, hne] at h
      obtain ⟨c0, hc0, hc⟩ := h
      exact List.mem_cons_of_mem ty (ih _ hc0 x hx)

theorem pushBack_head_skip (ty0 : Nat) (l : List Nat) (c : Chain) (e : Elem)
    (h : e.ty ≠ ty0) :
    pushBack ((ty0, l) :: c) e = (pushBack c e).map fun r => (ty0, l) :: r := by
  simp [pushBack, h]

theorem pushBackList_append (c : Chain) (l1 l2 : List Elem) :
    pushBackList c (l1 ++ l2)
      = (pushBackList c l1).bind fun c2 => pushBackList c2 l2 := by
  induction l1 generalizing c with
  | nil => simp [pushBackList]
  | cons e l1 ih =>
      cases hb : pushBack c e with
      | none => simp [pushBackList, hb]
      | some c1 => simp [pushBackList, hb, ih]

theorem pushBackList_skip (ty0 : Nat) (l : List Nat) (c : Chain) (es : List Elem)
    (h : ∀ e ∈ es, e.ty ≠ ty0) :
    pushBackList ((ty0, l) :: c) es
      = (pushBackList c es).map fun r => (ty0, l) :: r := by
  induction es generalizing c with
  | nil => simp [pushBackList]
  | cons e es ih =>
      have hskip := pushBack_head_skip ty0 l c e (h e (List.mem_cons_self e es))
      cases hb : pushBack c e with
      | none => simp [pushBackList, hskip, hb]
      | some c1 =>
          simp [pushBackList, hskip, hb,
            ih c1 fun x hx => h x (List.mem_cons_of_mem e hx)]

/-- C4 (amended): a collection constructed with initial elements e1..ek
equals the collection obtained by default-constructing and then inserting
ek..e1 — the arguments in REVERSE order — via `push_back`: each element is
still routed to the partition of its exact static type, but within each
partition the delegating constructors store the arguments in reverse
(LIFO, not FIFO) order. -/
theorem c4_construct_is_reversed_pushes : ∀ (tys : List Nat) (es : List Elem)
    (c : Chain), tys.Nodup → construct tys es = some c →
    pushBackList (emptyHet tys) es.reverse = some c := by
  intro tys es
  induction tys, es using construct.induct with
  | case1 tys =>
      intro c _ h
      simp [construct] at h
      simp [pushBackList, h]
  | case2 e es =>
      intro c _ h
      simp [construct] at h
  | case3 tys e es t vs rest hsome ih =>
      intro c hnd h
      simp [construct, hsome] at h
      have hfst := construct_map_fst _ _ _ hsome
      simp at hfst
      have ht : t = e.ty := hfst.1
      have hrev := ih _ hnd hsome
      rw [List.reverse_cons, pushBackList_append, hrev]
      subst ht
      simp [pushBackList, pushBack, ← h]
  | case4 tys e es hnone ih =>
      intro c hnd h
      exfalso
      cases hc : construct (e.ty :: tys) es with
      | none => simp [construct, hc] at h
      | some c0 =>
          cases c0 with
          | nil =>
              have := construct_map_fst _ _ _ hc
              simp at this
          | cons p rest0 =>
              obtain ⟨t, vs⟩ := p
              exact hnone t vs rest0 hc
  | case5 ty tys e es hne ih =>
      intro c hnd h
      simp [construct, hne] at h
      obtain ⟨c0, hc0, hc⟩ := h
      have hnd2 : tys.Nodup := (List.nodup_cons.mp hnd).2
      have hmem : ty ∉ tys := (List.nodup_cons.mp hnd).1
      have hrev := ih c0 hnd2 hc0
      have htys := construct_tys_mem _ _ _ hc0
      have hexp : emptyHet (ty :: tys) = (ty, []) :: emptyHet tys := rfl
      rw [hexp, pushBackList_skip, hrev]
      · simp [← hc]
      · intro x hx hcon
        exact hmem (hcon ▸ htys x (List.mem_reverse.mp hx))

theorem c4_witness :
    List.Nodup [0, 1]
    ∧ pushBackList (emptyHet [0, 1])
        ([⟨0, 1⟩, ⟨0, 2⟩, ⟨1, 3⟩] : List Elem).reverse
      = some [(0, [2, 1]), (1, [3])] :=
  ⟨by decide, c4_construct_is_reversed_pushes [0, 1] [⟨0, 1⟩, ⟨0, 2⟩, ⟨1, 3⟩]
    [(0, [2, 1]), (1, [3])] (by decide) (by simp [construct, emptyHet])⟩

/-! ## Determinism of traversal (C8) -/

theorem run_total (c : Chain) : Run c (performAll c) := by
  induction c with
  | nil => exact Run.nil
  | cons p rest ih =>
      obtain ⟨ty, vs⟩ := p
      exact Run.cons ty vs rest (performAll rest) ih

theorem run_det {c : Chain} {t1 t2 : List Call} (h1 : Run c t1) (h2 : Run c t2) :
    t1 = t2 := by
  induction h1 generalizing t2 with
  | nil => cases h2; rfl
  | cons ty vs rest tr h ih =>
      cases h2 with
      | cons _ _ _ tr2 h2 => rw [ih h2]

/-- C8: for a fixed collection state, the sequence of handler invocations
produced by a traversal is deterministic: `performAll` is a run, and any two
runs on the same chain produce identical invocation sequences. -/
theorem c8_deterministic_traversal (c : Chain) :
    Run c (performAll c)
    ∧ ∀ t1 t2, Run c t1 → Run c t2 → t1 = t2 :=
  ⟨run_total c, fun _ _ h1 h2 => run_det h1 h2⟩

theorem c8_witness :
    performAll [(0, [1, 2])]
      = sameTyTrace 0 [1, 2]
        ++ ([1, 2].map fun t => performFwd [] ⟨0, t⟩).flatten ++ [] :=
  (c8_deterministic_traversal [(0, [1, 2])]).2 _ _
    (c8_deterministic_traversal [(0, [1, 2])]).1
    (Run.cons 0 [1, 2] [] [] Run.nil)

/-! ## Adjacency and order of mirrored cross-type invocations (C10) -/

theorem infix_flatten_of_mem {α β : Type} {a : α} {l : List α} (g : α → List β)
    (h : a ∈ l) : g a <:+: (l.map g).flatten := by
  induction l with
  | nil => simp at h
  | cons x xs ih =>
      rcases List.mem_cons.mp h with h | h
      · subst h
        simp only [List.map_cons, List.flatten_cons]
        exact ((g a).prefix_append _).isInfix
      · simp only [List.map_cons, List.flatten_cons]
        exact ((ih h).trans (List.suffix_append _ _).isInfix)

theorem performFwd_append (c1 c2 : Chain) (u : Elem) :
    performFwd (c1 ++ c2) u = performFwd c1 u ++ performFwd c2 u := by
  induction c1 with
  | nil => simp [performFwd]
  | cons p rest ih => cases p; simp [performFwd, ih]

theorem performAll_suffix (c1 c2 : Chain) :
    performAll c2 <:+ performAll (c1 ++ c2) := by
  induction c1 with
  | nil => simp
  | cons p rest ih =>
      cases p
      exact ih.trans (List.suffix_append _ _)

/-- C10: for an element `u` of an earlier-declared partition and an element
`w` of a later-declared partition, the two mirrored handler invocations for
the pair occur adjacently and in a fixed order: first `fcns.f(w, u)` (the
later-declared partition's element first), then immediately `fcns.f(u, w)`. -/
theorem c10_mirrored_adjacent (c1 c2 c3 : Chain) (tyU tyW : Nat)
    (vsU vsW : List Nat) (u w : Nat) (hty : tyU ≠ tyW)
    (hu : u ∈ vsU) (hw : w ∈ vsW) :
    [(((⟨tyW, w⟩ : Elem), (⟨tyU, u⟩ : Elem)) : Call), ((⟨tyU, u⟩ : Elem), (⟨tyW, w⟩ : Elem))]
      <:+: performAll (c1 ++ (tyU, vsU) :: c2 ++ (tyW, vsW) :: c3) := by
  have hf : f ⟨tyW, w⟩ ⟨tyU, u⟩
      = [(((⟨tyW, w⟩ : Elem), (⟨tyU, u⟩ : Elem)) : Call),
          ((⟨tyU, u⟩ : Elem), (⟨tyW, w⟩ : Elem))] := by
    simp [f]
    intro hcon
    exact hty hcon.symm
  have h1 : f ⟨tyW, w⟩ ⟨tyU, u⟩
      <:+: (vsW.map fun t => f ⟨tyW, t⟩ ⟨tyU, u⟩).flatten :=
    infix_flatten_of_mem (fun t => f ⟨tyW, t⟩ ⟨tyU, u⟩) hw
  have h2 : (vsW.map fun t => f ⟨tyW, t⟩ ⟨tyU, u⟩).flatten
      <:+: performFwd ((tyW, vsW) :: c3) ⟨tyU, u⟩ := by
    rw [performFwd]
    exact (List.prefix_append _ _).isInfix
  have h3 : performFwd ((tyW, vsW) :: c3) ⟨tyU, u⟩
      <:+: performFwd (c2 ++ (tyW, vsW) :: c3) ⟨tyU, u⟩ := by
    rw [performFwd_append]
    exact (List.suffix_append _ _).isInfix
  have h4 : performFwd (c2 ++ (tyW, vsW) :: c3) ⟨tyU, u⟩
      <:+: (vsU.map fun t => performFwd (c2 ++ (tyW, vsW) :: c3) ⟨tyU, t⟩).flatten :=
    infix_flatten_of_mem (fun t => performFwd (c2 ++ (tyW, vsW) :: c3) ⟨tyU, t⟩) hu
  have h5 : (vsU.map fun t => performFwd (c2 ++ (tyW, vsW) :: c3) ⟨tyU, t⟩).flatten
      <:+: performAll ((tyU, vsU) :: (c2 ++ (tyW, vsW) :: c3)) := by
    rw [performAll]
    exact List.infix_append _ _ _
  have h6 : performAll ((tyU, vsU) :: (c2 ++ (tyW, vsW) :: c3))
      <:+: performAll (c1 ++ (tyU, vsU) :: c2 ++ (tyW, vsW) :: c3) := by
    have := performAll_suffix c1 ((tyU, vsU) :: c2 ++ (tyW, vsW) :: c3)
    simpa using this.isInfix
  rw [← hf]
  exact ((((h1.trans h2).trans h3).trans h4).trans h5).trans h6

theorem c10_witness :
    [(((⟨1, 2⟩ : Elem), (⟨0, 1⟩ : Elem)) : Call), ((⟨0, 1⟩ : Elem), (⟨1, 2⟩ : Elem))]
      <:+: performAll ([] ++ (0, [1]) :: [] ++ (1, [2]) :: []) :=
  c10_mirrored_adjacent [] [] [] 0 1 [1] [2] 1 2 (by decide) (by decide) (by decide)

/-! ## Counting cross-partition invocations (C1) -/

theorem countP_flatten_map {α : Type} (p : Call → Bool) (g : α → List Call)
    (l : List α) :
    (l.map g).flatten.countP p = (l.map fun a => (g a).countP p).sum := by
  induction l with
  | nil => rfl
  | cons x xs ih => simp [List.countP_append, ih]

theorem sum_map_add {α : Type} (l : List α) (g h : α → Nat) :
    (l.map fun a => g a + h a).sum = (l.map g).sum + (l.map h).sum := by
  induction l with
  | nil => rfl
  | cons x xs ih => simp [ih]; omega

theorem sum_map_ite {α : Type} (l : List α) (q : α → Bool) (k : Nat) :
    (l.map fun a => if q a then k else 0).sum = l.countP q * k := by
  induction l with
  | nil => simp
  | cons x xs ih =>
      by_cases hq : q x
      · simp [hq, List.countP_cons, ih]; ring
      · simp [hq, List.countP_cons, ih]

theorem countP_performFwd (Q R : Elem → Bool) (u : Elem) (rest : Chain)
    (hu : u.ty ∉ rest.map Prod.fst) :
    (performFwd rest u).countP (fun k => Q k.1 && R k.2)
      = (if R u then (elemsOf rest).countP Q else 0)
        + (if Q u then (elemsOf rest).countP R else 0) := by
  induction rest with
  | nil => simp [performFwd, elemsOf]
  | cons p rest ih =>
      obtain ⟨ty, vs⟩ := p
      simp only [List.map_cons, List.mem_cons] at hu
      push_neg at hu
      obtain ⟨hne, hu2⟩ := hu
      have hf : ∀ t : Nat, (f ⟨ty, t⟩ u).countP (fun k => Q k.1 && R k.2)
          = (if Q ⟨ty, t⟩ && R u then 1 else 0)
            + (if Q u && R ⟨ty, t⟩ then 1 else 0) := by
        intro t
        have hty : ((⟨ty, t⟩ : Elem).ty = u.ty) = False := by
          simp only [eq_iff_iff, iff_false]
          intro hc
          exact hne hc.symm
        simp [f, hty, List.countP_cons]
        omega
      rw [performFwd, List.countP_append, countP_flatten_map, ih hu2]
      have hmap : (vs.map fun t => (f ⟨ty, t⟩ u).countP (fun k => Q k.1 && R k.2))
          = vs.map fun t => (if Q ⟨ty, t⟩ && R u then 1 else 0)
            + (if Q u && R ⟨ty, t⟩ then 1 else 0) := by
        exact List.map_congr_left fun t _ => hf t
      rw [hmap, sum_map_add]
      cases hR : R u <;> cases hQ : Q u <;>
        (simp [hR, hQ, sum_map_ite, elemsOf, List.countP_append,
          List.countP_map, Function.comp_def]; try omega)

theorem mem_sameTyTrace {ty : Nat} {vs : List Nat} {k : Call}
    (hk : k ∈ sameTyTrace ty vs) :
    k.1.ty = ty ∧ k.2.ty = ty ∧ k.1.val ∈ vs ∧ k.2.val ∈ vs := by
  induction vs with
  | nil => simp [sameTyTrace] at hk
  | cons x xs ih =>
      rw [sameTyTrace_cons] at hk
      rcases List.mem_append.mp hk with hk | hk
      · obtain ⟨y, hy, hk⟩ := List.mem_map.mp hk
        rw [← hk]
        exact ⟨rfl, rfl, List.mem_cons_self x xs, List.mem_cons_of_mem x hy⟩
      · obtain ⟨h1, h2, h3, h4⟩ := ih hk
        exact ⟨h1, h2, List.mem_cons_of_mem x h3, List.mem_cons_of_mem x h4⟩

theorem countP_performAll_cross (Q R : Elem → Bool) (i j : Nat) (hij : i ≠ j)
    (hQ : ∀ e, Q e = true → e.ty = i) (hR : ∀ e, R e = true → e.ty = j)
    (c : Chain) (hnd : (c.map Prod.fst).Nodup) :
    (performAll c).countP (fun k => Q k.1 && R k.2)
      = (elemsOf c).countP Q * (elemsOf c).countP R := by
  induction c with
  | nil => simp [performAll, elemsOf]
  | cons p rest ih =>
      obtain ⟨ty, vs⟩ := p
      rw [List.map_cons, List.nodup_cons] at hnd
      obtain ⟨hty, hnd2⟩ := hnd
      have hsame : (sameTyTrace ty vs).countP (fun k => Q k.1 && R k.2) = 0 := by
        rw [List.countP_eq_zero]
        intro k hk
        obtain ⟨h1, h2, _, _⟩ := mem_sameTyTrace hk
        simp only [Bool.and_eq_true]
        rintro ⟨hq, hr⟩
        have hi : ty = i := h1 ▸ hQ _ hq
        have hj : ty = j := h2 ▸ hR _ hr
        exact hij (hi ▸ hj)
      have hmid : (vs.map fun t => (performFwd rest ⟨ty, t⟩).countP
            (fun k => Q k.1 && R k.2))
          = vs.map fun t => (if R ⟨ty, t⟩ then (elemsOf rest).countP Q else 0)
            + (if Q ⟨ty, t⟩ then (elemsOf rest).countP R else 0) :=
        List.map_congr_left fun t _ => countP_performFwd Q R ⟨ty, t⟩ rest hty
      rw [performAll, List.countP_append, List.countP_append, countP_flatten_map,
        hmid, sum_map_add, sum_map_ite, sum_map_ite, ih hnd2, hsame]
      have hAQ : (elemsOf ((ty, vs) :: rest)).countP Q
          = vs.countP (fun t => Q ⟨ty, t⟩) + (elemsOf rest).countP Q := by
        simp [elemsOf, List.countP_append, List.countP_map, Function.comp_def]
      have hAR : (elemsOf ((ty, vs) :: rest)).countP R
          = vs.countP (fun t => R ⟨ty, t⟩) + (elemsOf rest).countP R := by
        simp [elemsOf, List.countP_append, List.countP_map, Function.comp_def]
      rw [hAQ, hAR]
      have hzero : vs.countP (fun t => Q ⟨ty, t⟩) = 0
          ∨ vs.countP (fun t => R ⟨ty, t⟩) = 0 := by
        by_cases hti : ty = i
        · right
          rw [List.countP_eq_zero]
          intro a _ hra
          exact hij (hti ▸ hR ⟨ty, a⟩ hra)
        · left
          rw [List.countP_eq_zero]
          intro a _ hqa
          exact hti (hQ ⟨ty, a⟩ hqa)
      rcases hzero with h0 | h0 <;> rw [h0] <;> ring

theorem elemsOf_countP_ty (c : Chain) (i : Nat) :
    (elemsOf c).countP (fun e => e.ty == i) = (partOf c i).length := by
  induction c with
  | nil => rfl
  | cons p rest ih =>
      obtain ⟨ty, vs⟩ := p
      rw [elemsOf, partOf, List.countP_append, List.countP_map, List.length_append,
        ih]
      by_cases h : i = ty
      · subst h
        simp [Function.comp_def]
      · have : (ty == i) = false := by
          simp only [beq_eq_false_iff_ne, ne_eq]
          exact fun hc => h hc.symm
        simp [Function.comp_def, this, h]

theorem count_mk_map (ty i a : Nat) (vs : List Nat) :
    (vs.map fun v => (⟨ty, v⟩ : Elem)).count ⟨i, a⟩
      = if ty = i then vs.count a else 0 := by
  induction vs with
  | nil => simp
  | cons x xs ih =>
      simp only [List.map_cons, List.count_cons, ih]
      by_cases h : ty = i <;> by_cases hx : x = a <;>
        simp [h, hx, Elem.mk.injEq, List.count_cons]

theorem elemsOf_count (c : Chain) (i a : Nat) :
    (elemsOf c).count ⟨i, a⟩ = (partOf c i).count a := by
  induction c with
  | nil => rfl
  | cons p rest ih =>
      obtain ⟨ty, vs⟩ := p
      rw [elemsOf, partOf, List.count_append, List.count_append, ih, count_mk_map]
      by_cases h : i = ty
      · subst h; simp
      · have : (ty = i) = False := by
          simp only [eq_iff_iff, iff_false]
          exact fun hc => h hc.symm
        simp [h, this]

theorem count_pair_eq_countP (l : List Call) (x y : Elem) :
    l.count (x, y) = l.countP fun k => k.1 == x && k.2 == y := by
  induction l with
  | nil => rfl
  | cons k l ih =>
      rw [List.count_cons, List.countP_cons, ih]
      obtain ⟨k1, k2⟩ := k
      by_cases h1 : k1 = x <;> by_cases h2 : k2 = y <;>
        simp [h1, h2, Prod.ext_iff]

theorem count_cross (c : Chain) (i j a b : Nat)
    (hnd : (c.map Prod.fst).Nodup) (hij : i ≠ j) :
    (performAll c).count (((⟨i, a⟩ : Elem), (⟨j, b⟩ : Elem)) : Call)
      = (partOf c i).count a * (partOf c j).count b := by
  rw [count_pair_eq_countP]
  have h := countP_performAll_cross (fun e => e == ⟨i, a⟩) (fun e => e == ⟨j, b⟩)
    i j hij (fun e he => by rw [beq_iff_eq] at he; rw [he])
    (fun e he => by rw [beq_iff_eq] at he; rw [he]) c hnd
  rw [h, ← List.count_eq_countP, ← List.count_eq_countP, elemsOf_count,
    elemsOf_count]

theorem countP_or_disjoint (l : List Call) (p q : Call → Bool)
    (h : ∀ k, ¬(p k = true ∧ q k = true)) :
    l.countP (fun k => p k || q k) = l.countP p + l.countP q := by
  induction l with
  | nil => rfl
  | cons k l ih =>
      simp only [List.countP_cons, ih]
      by_cases hp : p k <;> by_cases hq : q k
      · exact absurd ⟨hp, hq⟩ (h k)
      all_goals simp [hp, hq] <;> omega

/-- C1: for distinct declared types i and j, a traversal makes exactly
mi·mj invocations with type pair (i, j) as ordered by arguments, hence
2·mi·mj invocations for the unordered type pair; for concrete values the
number of (u, w) invocations is the product of the two occurrence counts,
so when partitions hold no duplicates every cross pair (u, w) is invoked
exactly once in each argument direction. -/
theorem c1_cross_pair_counts (c : Chain) (i j : Nat)
    (hnd : (c.map Prod.fst).Nodup) (hij : i ≠ j) :
    (performAll c).countP (fun k => k.1.ty == i && k.2.ty == j)
        = (partOf c i).length * (partOf c j).length
    ∧ (performAll c).countP
        (fun k => (k.1.ty == i && k.2.ty == j) || (k.1.ty == j && k.2.ty == i))
        = 2 * ((partOf c i).length * (partOf c j).length)
    ∧ (∀ a b : Nat,
        (performAll c).count (((⟨i, a⟩ : Elem), (⟨j, b⟩ : Elem)) : Call)
          = (partOf c i).count a * (partOf c j).count b)
    ∧ ((partOf c i).Nodup → (partOf c j).Nodup →
        ∀ a ∈ partOf c i, ∀ b ∈ partOf c j,
          (performAll c).count (((⟨i, a⟩ : Elem), (⟨j, b⟩ : Elem)) : Call) = 1
          ∧ (performAll c).count (((⟨j, b⟩ : Elem), (⟨i, a⟩ : Elem)) : Call) = 1) := by
  have hdir : (performAll c).countP (fun k => k.1.ty == i && k.2.ty == j)
      = (partOf c i).length * (partOf c j).length := by
    have h := countP_performAll_cross (fun e => e.ty == i) (fun e => e.ty == j)
      i j hij (fun e he => by rwa [beq_iff_eq] at he)
      (fun e he => by rwa [beq_iff_eq] at he) c hnd
    rw [h, elemsOf_countP_ty, elemsOf_countP_ty]
  have hrev : (performAll c).countP (fun k => k.1.ty == j && k.2.ty == i)
      = (partOf c j).length * (partOf c i).length := by
    have h := countP_performAll_cross (fun e => e.ty == j) (fun e => e.ty == i)
      j i hij.symm (fun e he => by rwa [beq_iff_eq] at he)
      (fun e he => by rwa [beq_iff_eq] at he) c hnd
    rw [h, elemsOf_countP_ty, elemsOf_countP_ty]
  refine ⟨hdir, ?_, fun a b => count_cross c i j a b hnd hij, ?_⟩
  · rw [countP_or_disjoint _ _ _ ?_, hdir, hrev]
    · ring
    · rintro k ⟨h1, h2⟩
      simp only [Bool.and_eq_true, beq_iff_eq] at h1 h2
      exact hij (h1.1 ▸ h2.1)
  · intro hni hnj a ha b hb
    constructor
    · rw [count_cross c i j a b hnd hij, List.count_eq_one_of_mem hni ha,
        List.count_eq_one_of_mem hnj hb]
    · rw [count_cross c j i b a hnd hij.symm, List.count_eq_one_of_mem hnj hb,
        List.count_eq_one_of_mem hni ha]

theorem c1_witness :
    (performAll [(0, [1]), (1, [2])]).countP (fun k => k.1.ty == 0 && k.2.ty == 1)
      = (partOf [(0, [1]), (1, [2])] 0).length
        * (partOf [(0, [1]), (1, [2])] 1).length :=
  (c1_cross_pair_counts [(0, [1]), (1, [2])] 0 1 (by decide) (by decide)).1

/-! ## Same-type pairs (C2) -/

theorem partOf_nil_of_not_mem (c : Chain) (i : Nat)
    (h : i ∉ c.map Prod.fst) : partOf c i = [] := by
  induction c with
  | nil => rfl
  | cons p rest ih =>
      obtain ⟨ty, vs⟩ := p
      simp only [List.map_cons, List.mem_cons] at h
      push_neg at h
      rw [partOf, if_neg h.1, ih h.2]
      rfl

theorem mem_performFwd {rest : Chain} {u : Elem} {k : Call}
    (hk : k ∈ performFwd rest u) :
    (k.2 = u ∧ k.1.ty ∈ rest.map Prod.fst)
      ∨ (k.1 = u ∧ k.2.ty ∈ rest.map Prod.fst) := by
  induction rest with
  | nil => simp [performFwd] at hk
  | cons p rest ih =>
      obtain ⟨ty, vs⟩ := p
      rw [performFwd] at hk
      rcases List.mem_append.mp hk with hk | hk
      · obtain ⟨l, hl, hkl⟩ := List.mem_flatten.mp hk
        obtain ⟨t, _, hfl⟩ := List.mem_map.mp hl
        rw [← hfl] at hkl
        by_cases hty : ((⟨ty, t⟩ : Elem)).ty = u.ty
        · rw [f, if_pos hty] at hkl
          simp only [List.mem_singleton] at hkl
          subst hkl
          exact Or.inl ⟨rfl, by simp⟩
        · rw [f, if_neg hty] at hkl
          rcases List.mem_pair.mp hkl with hkl | hkl <;> subst hkl
          · exact Or.inl ⟨rfl, by simp⟩
          · exact Or.inr ⟨rfl, by simp⟩
      · rcases ih hk with ⟨h1, h2⟩ | ⟨h1, h2⟩
        · exact Or.inl ⟨h1, List.mem_cons_of_mem _ h2⟩
        · exact Or.inr ⟨h1, List.mem_cons_of_mem _ h2⟩

theorem filter_performAll_same (c : Chain) (i : Nat)
    (hnd : (c.map Prod.fst).Nodup) :
    (performAll c).filter (fun k => k.1.ty == i && k.2.ty == i)
      = sameTyTrace i (partOf c i) := by
  induction c with
  | nil => rfl
  | cons p rest ih =>
      obtain ⟨ty, vs⟩ := p
      rw [List.map_cons, List.nodup_cons] at hnd
      obtain ⟨hty, hnd2⟩ := hnd
      rw [performAll, List.filter_append, List.filter_append, ih hnd2]
      have hmid : ((vs.map fun t => performFwd rest ⟨ty, t⟩).flatten).filter
          (fun k => k.1.ty == i && k.2.ty == i) = [] := by
        rw [List.filter_eq_nil_iff]
        intro k hk
        obtain ⟨l, hl, hkl⟩ := List.mem_flatten.mp hk
        obtain ⟨t, _, hfl⟩ := List.mem_map.mp hl
        rw [← hfl] at hkl
        simp only [Bool.and_eq_true, beq_iff_eq, not_and]
        intro h1 h2
        rcases mem_performFwd hkl with ⟨hu, hmem⟩ | ⟨hu, hmem⟩
        · rw [hu] at h2
          simp only at h2
          rw [h1, ← h2] at hmem
          exact hty hmem
        · rw [hu] at h1
          simp only at h1
          rw [h2, ← h1] at hmem
          exact hty hmem
      rw [hmid]
      by_cases hi : ty = i
      · have hrest0 : partOf rest i = [] :=
          partOf_nil_of_not_mem rest i (by rw [← hi]; exact hty)
        have hpart : partOf ((ty, vs) :: rest) i = vs := by
          rw [partOf, if_pos hi.symm, hrest0, List.append_nil]
        have hkeep : (sameTyTrace ty vs).filter
            (fun k => k.1.ty == i && k.2.ty == i) = sameTyTrace ty vs := by
          rw [List.filter_eq_self]
          intro k hk
          obtain ⟨h1, h2, _, _⟩ := mem_sameTyTrace hk
          simp [h1, h2, hi]
        rw [hkeep, hpart, hrest0, hi]
        simp [sameTyTrace]
      · have hdrop : (sameTyTrace ty vs).filter
            (fun k => k.1.ty == i && k.2.ty == i) = [] := by
          rw [List.filter_eq_nil_iff]
          intro k hk
          obtain ⟨h1, _, _, _⟩ := mem_sameTyTrace hk
          simp only [Bool.and_eq_true, beq_iff_eq, not_and]
          intro hc
          exact absurd (h1 ▸ hc : ty = i) hi
        rw [hdrop, partOf, if_neg (fun hc => hi hc.symm)]
        simp

theorem count_pairhead_map (i x a b : Nat) (xs : List Nat) :
    (xs.map fun y => (((⟨i, x⟩ : Elem), (⟨i, y⟩ : Elem)) : Call)).count
        (((⟨i, a⟩ : Elem), (⟨i, b⟩ : Elem)) : Call)
      = if x = a then xs.count b else 0 := by
  induction xs with
  | nil => simp
  | cons y ys ih =>
      simp only [List.map_cons, List.count_cons, ih]
      by_cases h : x = a <;> by_cases hy : y = b <;>
        simp [h, hy, List.count_cons, Elem.mk.injEq, Prod.ext_iff]

theorem sameTyTrace_first_not_mem (i a : Nat) (vs : List Nat) (e : Elem)
    (ha : a ∉ vs) :
    (sameTyTrace i vs).count (((⟨i, a⟩ : Elem), e) : Call) = 0 := by
  rw [List.count_eq_zero]
  intro hmem
  exact ha (mem_sameTyTrace hmem).2.2.1

theorem sameTyTrace_second_not_mem (i a : Nat) (vs : List Nat) (e : Elem)
    (ha : a ∉ vs) :
    (sameTyTrace i vs).count ((e, (⟨i, a⟩ : Elem)) : Call) = 0 := by
  rw [List.count_eq_zero]
  intro hmem
  exact ha (mem_sameTyTrace hmem).2.2.2

theorem count_sameTyTrace_sublist (i a b : Nat) (vs : List Nat)
    (hnd : vs.Nodup) (hab : [a, b].Sublist vs) :
    (sameTyTrace i vs).count (((⟨i, a⟩ : Elem), (⟨i, b⟩ : Elem)) : Call) = 1 := by
  induction vs with
  | nil => simp at hab
  | cons x xs ih =>
      obtain ⟨hx, hxs⟩ := List.nodup_cons.mp hnd
      rw [sameTyTrace_cons, List.count_append, count_pairhead_map]
      cases hab with
      | cons _ hab2 =>
          have haxs : a ∈ xs := hab2.subset (List.mem_cons_self a [b])
          have hxa : ¬x = a := fun hc => hx (hc ▸ haxs)
          rw [if_neg hxa, ih hxs hab2]
      | cons₂ _ hab2 =>
          have hbxs : b ∈ xs := hab2.subset (List.mem_cons_self b [])
          rw [if_pos rfl, List.count_eq_one_of_mem hxs hbxs,
            sameTyTrace_first_not_mem i a xs ⟨i, b⟩ hx]


theorem count_sameTyTrace_mirror (i a b : Nat) (vs : List Nat)
    (hnd : vs.Nodup) (hab : [a, b].Sublist vs) :
    (sameTyTrace i vs).count (((⟨i, b⟩ : Elem), (⟨i, a⟩ : Elem)) : Call) = 0 := by
  induction vs with
  | nil => simp [sameTyTrace]
  | cons x xs ih =>
      obtain ⟨hx, hxs⟩ := List.nodup_cons.mp hnd
      rw [sameTyTrace_cons, List.count_append, count_pairhead_map]
      cases hab with
      | cons _ hab2 =>
          have hbxs : b ∈ xs := hab2.subset (List.mem_cons_of_mem a (List.mem_cons_self b []))
          have hxb : ¬x = b := fun hc => hx (hc ▸ hbxs)
          rw [if_neg hxb, ih hxs hab2]
      | cons₂ _ hab2 =>
          have hbxs : b ∈ xs := hab2.subset (List.mem_cons_self b [])
          have hne : ¬a = b := fun hc => hx (hc ▸ hbxs)
          rw [if_neg hne, sameTyTrace_second_not_mem i a xs ⟨i, b⟩ hx]

theorem length_sameTyTrace (i : Nat) (vs : List Nat) :
    (sameTyTrace i vs).length = Nat.choose vs.length 2 := by
  induction vs with
  | nil => rfl
  | cons x xs ih =>
      rw [sameTyTrace_cons, List.length_append, List.length_map, ih,
        List.length_cons]
      have : (xs.length + 1).choose 2 = xs.length.choose 1 + xs.length.choose 2 :=
        Nat.choose_succ_succ xs.length 1
      rw [this, Nat.choose_one_right]

/-- C2: within a single partition of type i, for every pair of distinct
elements with `a` stored before `b`, the same-type handler is invoked
exactly once as (a, b) and never as (b, a); the total number of same-type
invocations for the partition is C(mi, 2). -/
theorem c2_same_type_pairs (c : Chain) (i a b : Nat)
    (hnd : (c.map Prod.fst).Nodup) (hv : (partOf c i).Nodup)
    (hab : [a, b].Sublist (partOf c i)) :
    (performAll c).count (((⟨i, a⟩ : Elem), (⟨i, b⟩ : Elem)) : Call) = 1
    ∧ (performAll c).count (((⟨i, b⟩ : Elem), (⟨i, a⟩ : Elem)) : Call) = 0
    ∧ (performAll c).countP (fun k => k.1.ty == i && k.2.ty == i)
        = Nat.choose (partOf c i).length 2 := by
  have hfil := filter_performAll_same c i hnd
  refine ⟨?_, ?_, ?_⟩
  · have hp : (fun k : Call => k.1.ty == i && k.2.ty == i)
        (((⟨i, a⟩ : Elem), (⟨i, b⟩ : Elem)) : Call) = true := by simp
    rw [← @List.count_filter Call _ _ (fun k : Call => k.1.ty == i && k.2.ty == i)
      _ (performAll c) hp, hfil]
    exact count_sameTyTrace_sublist i a b (partOf c i) hv hab
  · have hp : (fun k : Call => k.1.ty == i && k.2.ty == i)
        (((⟨i, b⟩ : Elem), (⟨i, a⟩ : Elem)) : Call) = true := by simp
    rw [← @List.count_filter Call _ _ (fun k : Call => k.1.ty == i && k.2.ty == i)
      _ (performAll c) hp, hfil]
    exact count_sameTyTrace_mirror i a b (partOf c i) hv hab
  · rw [List.countP_eq_length_filter, hfil, length_sameTyTrace]

theorem c2_witness :
    (performAll [(0, [1, 2])]).count
        (((⟨0, 1⟩ : Elem), (⟨0, 2⟩ : Elem)) : Call) = 1
    ∧ (performAll [(0, [1, 2])]).count
        (((⟨0, 2⟩ : Elem), (⟨0, 1⟩ : Elem)) : Call) = 0
    ∧ (performAll [(0, [1, 2])]).countP (fun k => k.1.ty == 0 && k.2.ty == 0)
        = Nat.choose (partOf [(0, [1, 2])] 0).length 2 :=
  c2_same_type_pairs [(0, [1, 2])] 0 1 2 (by decide) (by decide)
    (by decide)

end Hetvec
